import Mathlib

/-!
Shallow embedding of `GitBookRenderer.render`
(`src/pydoc_markdown/contrib/renderers/gitbook.py`, lines 104-136) and of the
Python primitives it relies on (`str.split(".")`, `str.endswith`,
`os.path.splitext`, `pathlib.Path.mkdir(parents, exist_ok)`, truncating
`open("w")`).  Filesystem paths are modelled as lists of path segments; the
filesystem is an explicit state (an ordered set of directories and an ordered
association list of file contents).  The delegated markdown renderer
(`self.markdown.render_single_page`) is an injected function returning the
content it wrote to the file plus an optional exception raised afterwards.
-/

namespace GitBookSpec

/-! ## Python string primitives -/

/-- `str.split(".")`: split a character list on `'.'`.  Always non-empty;
`"".split(".") == [""]` and a trailing separator yields a trailing `""`. -/
def splitDots : List Char → List (List Char)
  | [] => [[]]
  | c :: rest =>
    let r := splitDots rest
    if c = '.' then [] :: r
    else
      match r with
      | [] => [[c]]
      | g :: gs => (c :: g) :: gs

/-- `module.name.split(".")` as used at gitbook.py line 110. -/
def pySplitDot (s : String) : List String :=
  (splitDots s.data).map (fun cs => String.mk cs)

/-- Whether `t` starts the character list `l`. -/
def pfxChars : List Char → List Char → Bool
  | [], _ => true
  | _ :: _, [] => false
  | a :: as, b :: bs => (a == b) && pfxChars as bs

/-- Python `s.endswith(t)`: plain suffix match on the characters. -/
def endsWithPy (s t : String) : Bool :=
  pfxChars t.data.reverse s.data.reverse

/-- Join a list of strings with a separator (Python `sep.join(parts)`). -/
def joinSep (sep : String) : List String → String
  | [] => ""
  | [x] => x
  | x :: y :: rest => x ++ sep ++ joinSep sep (y :: rest)

/-- `".".join(...)` as used for navigation-tree keys (gitbook.py line 120). -/
def dotJoin (l : List String) : String := joinSep "." l

/-- `"/".join(...)`: the string form of a relative `Path`. -/
def slashJoin (l : List String) : String := joinSep "/" l

/-- First component of `os.path.splitext` applied to a basename (a path
segment with no separator inside): the extension starts at the last dot,
except when every character before that dot is itself a dot (then nothing is
stripped, e.g. `".md"` keeps its name). -/
def splitextFst (s : String) : String :=
  match s.data.reverse.dropWhile (fun c => !(c == '.')) with
  | [] => s
  | _ :: stemRev =>
    if stemRev.reverse.all (fun c => c == '.') then s
    else String.mk stemRev.reverse

/-! ## Input data model -/

/-- A docspec module as `render` consumes it: its dotted `name` and the
`location.filename` of its source. -/
structure Module where
  name : String
  filename : String
deriving DecidableEq

/-- The `GitBookRenderer` dataclass options that are plain data (the
`markdown` collaborator is passed separately as a function). -/
structure Config where
  docs_base_path : String := "docs"
  relative_output_path : String := "reference"
  relative_sidebar_path : String := "sidebar.json"
  sidebar_top_level_label : Option String := some "Reference"
  sidebar_top_level_module_label : Option String := none
deriving DecidableEq

/-! ## Navigation tree (`module_tree`: nested dicts with `children`/`edges`) -/

/-- One navigation node: `{"children": {...}, "edges": [...]}`.  The
`children` dict keeps Python's insertion order, so it is an ordered
association list keyed by the cumulative dotted prefix. -/
inductive ModuleTree : Type where
  | node : List (String × ModuleTree) → List String → ModuleTree

def ModuleTree.children : ModuleTree → List (String × ModuleTree)
  | .node ch _ => ch

def ModuleTree.edges : ModuleTree → List String
  | .node _ ed => ed

/-- Dict lookup over the ordered children. -/
def lookupChild : List (String × ModuleTree) → String → Option ModuleTree
  | [], _ => none
  | (k, v) :: rest, key => if k = key then some v else lookupChild rest key

/-- Dict assignment: replace in place when the key exists, otherwise append
(Python dict insertion order). -/
def setChild : List (String × ModuleTree) → String → ModuleTree → List (String × ModuleTree)
  | [], k, v => [(k, v)]
  | (k', v') :: rest, k, v =>
    if k' = k then (k, v) :: rest else (k', v') :: setChild rest k v

/-- The per-module navigation-tree walk of gitbook.py lines 114-122 and 136:
descend through the intermediate name components, `setdefault`-creating each
missing node keyed by the cumulative dotted prefix, and, when `eo = some e`,
append `e` to the `edges` of the deepest node reached (line 136).  With
`eo = none` only the `setdefault` descent happens (the delegated write raised
before line 136 was reached). -/
def treeUpdate : ModuleTree → List String → List String → Option String → ModuleTree
  | ModuleTree.node ch ed, [], _, none => ModuleTree.node ch ed
  | ModuleTree.node ch ed, [], _, some e => ModuleTree.node ch (ed ++ [e])
  | ModuleTree.node ch ed, p :: rest, pref, eo =>
    let pref' := pref ++ [p]
    let key := dotJoin pref'
    let child := (lookupChild ch key).getD (ModuleTree.node [] [])
    ModuleTree.node (setChild ch key (treeUpdate child rest pref' eo)) ed

/-- Observe the node reached from `t` by successive components `qs`
(with `pref` the components already consumed), following the same
dotted-prefix keys the code uses. -/
def subtreeAt : ModuleTree → List String → List String → Option ModuleTree
  | t, [], _ => some t
  | t, q :: rest, pref =>
    match lookupChild t.children (dotJoin (pref ++ [q])) with
    | none => none
    | some c => subtreeAt c rest (pref ++ [q])

/-- The `edges` list of the node reached by `qs` (empty when absent). -/
def edgesAt (t : ModuleTree) (qs pref : List String) : List String :=
  match subtreeAt t qs pref with
  | none => []
  | some s => s.edges

/-- The keys of a node's `children` dict. -/
def childKeys (t : ModuleTree) : List String := t.children.map Prod.fst

/-- Boolean distinctness of a list of keys. -/
def nodupStr : List String → Bool
  | [] => true
  | x :: xs => !(decide (x ∈ xs)) && nodupStr xs

/-- Boolean list-prefix test on component lists. -/
def isPfxOf : List String → List String → Bool
  | [], _ => true
  | _ :: _, [] => false
  | a :: as, b :: bs => (a == b) && isPfxOf as bs

/-! ## Filesystem model -/

/-- Filesystem state: the set of existing directories (in creation order) and
the files with their contents (in creation order). -/
structure FS where
  dirs : List (List String)
  files : List (List String × String)
deriving DecidableEq

def FS.hasDir (fs : FS) (p : List String) : Bool := decide (p ∈ fs.dirs)

/-- Create a single directory if absent. -/
def FS.addDir (fs : FS) (p : List String) : FS :=
  if p ∈ fs.dirs then fs else { fs with dirs := fs.dirs ++ [p] }

/-- All non-empty ancestors of `p`, outermost first, ending with `p` itself. -/
def dirChain (p : List String) : List (List String) :=
  (List.range p.length).map (fun i => p.take (i + 1))

/-- The filesystem after `p.mkdir(parents=True, exist_ok=True)`. -/
def FS.mkdirAdd (fs : FS) (p : List String) : FS :=
  if p ∈ fs.dirs then fs else (dirChain p).foldl FS.addDir fs

/-- `pathlib.Path.mkdir(parents, exist_ok)`: an existing target errors unless
`exist_ok`; a missing parent errors unless `parents`; otherwise the missing
directories are created. -/
def FS.mkdir (fs : FS) (p : List String) (parents exOk : Bool) : Except String FS :=
  if p ∈ fs.dirs then
    if exOk then Except.ok fs else Except.error "FileExistsError"
  else if parents then Except.ok ((dirChain p).foldl FS.addDir fs)
  else if p.dropLast = [] ∨ p.dropLast ∈ fs.dirs then Except.ok (fs.addDir p)
  else Except.error "FileNotFoundError"

/-- Dict-style assignment of a file's content (in place when present). -/
def setFileAssoc : List (List String × String) → List String → String → List (List String × String)
  | [], p, c => [(p, c)]
  | (q, d) :: rest, p, c =>
    if q = p then (q, c) :: rest else (q, d) :: setFileAssoc rest p c

/-- `open(path, "w")` followed by writing `c`: truncate-and-write. -/
def FS.writeFile (fs : FS) (p : List String) (c : String) : FS :=
  { fs with files := setFileAssoc fs.files p c }

def lookupFile : List (List String × String) → List String → Option String
  | [], _ => none
  | (q, d) :: rest, p => if q = p then some d else lookupFile rest p

def FS.readFile (fs : FS) (p : List String) : Option String :=
  lookupFile fs.files p

/-! ## The render pass (gitbook.py lines 104-136) -/

/-- Lines 110-112: split the dotted name; when the source filename ends with
the literal `"__init__.py"`, append a synthetic `"__init__"` component. -/
def moduleParts (m : Module) : List String :=
  let parts := pySplitDot m.name
  if endsWithPy m.filename "__init__.py" then parts ++ ["__init__"] else parts

/-- `module_parts[:-1]`: the directory components. -/
def dirSegs (m : Module) : List String := (moduleParts m).dropLast

/-- `module_parts[-1]`: the filename component (the parts are never empty). -/
def lastSeg (m : Module) : String := (moduleParts m).getLastD ""

/-- The target directory: `Path(docs_base_path) / relative_output_path`
extended by the directory components (lines 106, 125). -/
def dirPathOf (cfg : Config) (m : Module) : List String :=
  cfg.docs_base_path :: cfg.relative_output_path :: dirSegs m

/-- The output file: directory plus `f"{module_parts[-1]}.md"` (line 129). -/
def filePathOf (cfg : Config) (m : Module) : List String :=
  dirPathOf cfg m ++ [lastSeg m ++ ".md"]

/-- Line 136: `os.path.splitext(str(filepath.relative_to(docs_base_path)))[0]`.
Relative to the base the path starts at `relative_output_path`; `splitext`
acts inside the final segment. -/
def edgeOf (cfg : Config) (m : Module) : String :=
  slashJoin (cfg.relative_output_path :: (dirSegs m ++ [splitextFst (lastSeg m ++ ".md")]))

/-- The mutable state of one render pass: the filesystem and `module_tree`. -/
structure RState where
  fs : FS
  tree : ModuleTree

/-- One iteration of the `for module in modules` loop (lines 107-136), in
source order: navigation-tree descent, `mkdir`, truncating open plus the
delegated `render_single_page` (which may raise after writing a partial
content), and, only on success, the `edges.append` of line 136.
`r m = (content, none)` means the collaborator wrote `content` and returned;
`r m = (content, some e)` means it raised `e` after writing `content`. -/
def renderModule (cfg : Config) (r : Module → String × Option String)
    (st : RState) (m : Module) : RState × Option String :=
  match FS.mkdir st.fs (dirPathOf cfg m) true true with
  | Except.error e =>
    ({ st with tree := treeUpdate st.tree (dirSegs m) [] none }, some e)
  | Except.ok fs1 =>
    match r m with
    | (content, some e) =>
      ({ fs := fs1.writeFile (filePathOf cfg m) content,
         tree := treeUpdate st.tree (dirSegs m) [] none }, some e)
    | (content, none) =>
      ({ fs := fs1.writeFile (filePathOf cfg m) content,
         tree := treeUpdate st.tree (dirSegs m) [] (some (edgeOf cfg m)) }, none)

/-- The module loop: stop at the first exception, carrying the state reached
(no cleanup, no skip-and-continue). -/
def renderLoop (cfg : Config) (r : Module → String × Option String) :
    List Module → RState → RState × Option String
  | [], st => (st, none)
  | m :: ms, st =>
    match renderModule cfg r st m with
    | (st', none) => renderLoop cfg r ms st'
    | (st', some e) => (st', some e)

/-- `GitBookRenderer.render`: a fresh empty `module_tree` (line 105), then the
loop over the given modules against the ambient filesystem. -/
def render (cfg : Config) (r : Module → String × Option String)
    (mods : List Module) (fs : FS) : RState × Option String :=
  renderLoop cfg r mods { fs := fs, tree := ModuleTree.node [] [] }

/-! ## String lemmas -/

lemma str_data_append (s t : String) : (s ++ t).data = s.data ++ t.data := by
  obtain ⟨a⟩ := s; obtain ⟨b⟩ := t; rfl

lemma str_cancel_left {s a b : String} (h : s ++ a = s ++ b) : a = b := by
  have hd := congrArg String.data h
  rw [str_data_append, str_data_append] at hd
  have h2 : a.data = b.data := List.append_cancel_left hd
  exact congrArg String.mk h2

lemma dotJoin_snoc_inj : ∀ (l : List String) {a b : String},
    dotJoin (l ++ [a]) = dotJoin (l ++ [b]) → a = b
  | [], a, b, h => by simpa [dotJoin, joinSep] using h
  | [x], a, b, h => by
    simp only [dotJoin, List.cons_append, List.nil_append, joinSep] at h
    exact str_cancel_left h
  | x :: y :: rest, a, b, h => by
    simp only [dotJoin, List.cons_append, joinSep] at h
    exact dotJoin_snoc_inj (y :: rest)
      (by simpa [dotJoin, List.cons_append] using str_cancel_left h)

lemma dotJoin_snoc_ne (l : List String) {a b : String} (h : a ≠ b) :
    dotJoin (l ++ [a]) ≠ dotJoin (l ++ [b]) :=
  fun hc => h (dotJoin_snoc_inj l hc)

lemma splitDots_ne_nil (cs : List Char) : splitDots cs ≠ [] := by
  induction cs with
  | nil => simp [splitDots]
  | cons c rest ih =>
    simp only [splitDots]
    by_cases h : c = '.'
    · simp [h]
    · simp only [if_neg h]
      cases hr : splitDots rest with
      | nil => simp
      | cons g gs => simp

lemma splitDots_no_dot : ∀ (cs : List Char), ∀ g ∈ splitDots cs, ∀ c ∈ g, c ≠ '.' := by
  intro cs
  induction cs with
  | nil =>
    intro g hg c hc
    simp only [splitDots, List.mem_singleton] at hg
    subst hg; simp at hc
  | cons c0 rest ih =>
    intro g hg c hc
    simp only [splitDots] at hg
    by_cases h : c0 = '.'
    · rw [if_pos h] at hg
      rcases List.mem_cons.mp hg with h1 | h1
      · subst h1; simp at hc
      · exact ih g h1 c hc
    · rw [if_neg h] at hg
      cases hr : splitDots rest with
      | nil => exact absurd hr (splitDots_ne_nil rest)
      | cons g0 gs =>
        rw [hr] at hg
        rcases List.mem_cons.mp hg with h1 | h1
        · subst h1
          rcases List.mem_cons.mp hc with h2 | h2
          · subst h2; exact h
          · exact ih g0 (by rw [hr]; exact List.mem_cons_self g0 gs) c h2
        · exact ih g (by rw [hr]; exact List.mem_cons_of_mem g0 h1) c hc

lemma pySplitDot_ne_nil (s : String) : pySplitDot s ≠ [] := by
  simp only [pySplitDot, ne_eq, List.map_eq_nil_iff]
  exact splitDots_ne_nil s.data

lemma pySplitDot_no_dot (s : String) : ∀ x ∈ pySplitDot s, ∀ c ∈ x.data, c ≠ '.' := by
  intro x hx c hc
  simp only [pySplitDot, List.mem_map] at hx
  obtain ⟨g, hg, hxg⟩ := hx
  subst hxg
  exact splitDots_no_dot s.data g hg c hc

lemma moduleParts_ne_nil (m : Module) : moduleParts m ≠ [] := by
  unfold moduleParts
  split
  · simp
  · exact pySplitDot_ne_nil m.name

lemma moduleParts_no_dot (m : Module) : ∀ x ∈ moduleParts m, ∀ c ∈ x.data, c ≠ '.' := by
  intro x hx
  unfold moduleParts at hx
  split at hx
  · rcases List.mem_append.mp hx with h1 | h1
    · exact pySplitDot_no_dot m.name x h1
    · intro c hc
      simp only [List.mem_singleton] at h1
      subst h1
      intro hcd
      subst hcd
      revert hc
      decide
  · exact pySplitDot_no_dot m.name x hx

lemma getLastD_mem : ∀ (l : List String) (d : String), l ≠ [] → l.getLastD d ∈ l := by
  intro l
  induction l with
  | nil => intro d h; exact absurd rfl h
  | cons x xs ih =>
    intro d _
    rw [List.getLastD_cons]
    cases hx : xs with
    | nil => subst hx; simp [List.getLastD]
    | cons y ys =>
      subst hx
      exact List.mem_cons_of_mem x (ih x (by simp))

lemma lastSeg_mem (m : Module) : lastSeg m ∈ moduleParts m :=
  getLastD_mem (moduleParts m) "" (moduleParts_ne_nil m)

lemma lastSeg_no_dot (m : Module) : ∀ c ∈ (lastSeg m).data, c ≠ '.' :=
  moduleParts_no_dot m (lastSeg m) (lastSeg_mem m)

lemma splitextFst_strip (cs : List Char) (hne : cs ≠ []) (hnd : ∀ c ∈ cs, c ≠ '.') :
    splitextFst (String.mk cs ++ ".md") = String.mk cs := by
  have hdata : (String.mk cs ++ ".md").data = cs ++ ['.', 'm', 'd'] := by
    rw [str_data_append]
  unfold splitextFst
  rw [hdata, List.reverse_append]
  have hrev : (['.', 'm', 'd'] : List Char).reverse = ['d', 'm', '.'] := rfl
  have hdrop : List.dropWhile (fun c => !(c == '.')) ('d' :: 'm' :: '.' :: cs.reverse)
      = '.' :: cs.reverse := by
    rw [List.dropWhile_cons_of_pos (by decide), List.dropWhile_cons_of_pos (by decide),
      List.dropWhile_cons_of_neg (by decide)]
  rw [hrev, List.cons_append, List.cons_append, List.cons_append, List.nil_append, hdrop]
  simp only [List.reverse_reverse]
  have hall : cs.all (fun c => c == '.') = false := by
    cases cs with
    | nil => exact absurd rfl hne
    | cons c0 t =>
      have : (c0 == '.') = false := by
        have := hnd c0 (List.mem_cons_self c0 t)
        simpa using this
      simp [List.all_cons, this]
  rw [hall]
  simp

/-- `splitext` strips exactly the `.md` the code appended, provided the final
name component is non-empty (components of a dotted split never contain a
dot). -/
lemma splitextFst_lastSeg (m : Module) (h : lastSeg m ≠ "") :
    splitextFst (lastSeg m ++ ".md") = lastSeg m := by
  have hne : (lastSeg m).data ≠ [] := by
    intro hc
    apply h
    calc lastSeg m = String.mk (lastSeg m).data := rfl
      _ = String.mk [] := by rw [hc]
      _ = "" := rfl
  exact splitextFst_strip (lastSeg m).data hne (lastSeg_no_dot m)

/-! ## Children-dict lemmas -/

lemma lookup_setChild_self (ch : List (String × ModuleTree)) (k : String) (v : ModuleTree) :
    lookupChild (setChild ch k v) k = some v := by
  induction ch with
  | nil => simp [setChild, lookupChild]
  | cons hd tl ih =>
    obtain ⟨k', v'⟩ := hd
    by_cases h : k' = k
    · simp [setChild, h, lookupChild]
    · simp [setChild, h, lookupChild, ih]

lemma lookup_setChild_ne (ch : List (String × ModuleTree)) {k k' : String} (v : ModuleTree)
    (h : k' ≠ k) : lookupChild (setChild ch k v) k' = lookupChild ch k' := by
  induction ch with
  | nil =>
    have hk : ¬ k = k' := fun hc => h hc.symm
    simp [setChild, lookupChild, hk]
  | cons hd tl ih =>
    obtain ⟨k0, v0⟩ := hd
    by_cases h0 : k0 = k
    · subst h0
      have hk : ¬ k0 = k' := fun hc => h hc.symm
      simp [setChild, lookupChild, hk]
    · simp [setChild, h0, lookupChild, ih]

lemma lookupChild_eq_none_iff (ch : List (String × ModuleTree)) (k : String) :
    lookupChild ch k = none ↔ k ∉ ch.map Prod.fst := by
  induction ch with
  | nil => simp [lookupChild]
  | cons hd tl ih =>
    obtain ⟨k0, v0⟩ := hd
    by_cases h0 : k0 = k
    · simp [lookupChild, h0]
    · have hk : ¬ k = k0 := fun hc => h0 hc.symm
      simp [lookupChild, h0, ih, hk]

lemma keys_setChild (ch : List (String × ModuleTree)) (k : String) (v : ModuleTree) :
    (setChild ch k v).map Prod.fst =
      if (lookupChild ch k).isSome then ch.map Prod.fst else ch.map Prod.fst ++ [k] := by
  induction ch with
  | nil => simp [setChild, lookupChild]
  | cons hd tl ih =>
    obtain ⟨k0, v0⟩ := hd
    by_cases h0 : k0 = k
    · simp [setChild, h0, lookupChild]
    · simp only [setChild, if_neg h0, List.map_cons, lookupChild, ih]
      by_cases hs : (lookupChild tl k).isSome
      · simp [hs, h0]
      · simp [hs, h0]

lemma nodupStr_append_singleton {l : List String} {k : String}
    (h1 : k ∉ l) (h2 : nodupStr l = true) : nodupStr (l ++ [k]) = true := by
  induction l with
  | nil => simp [nodupStr]
  | cons x xs ih =>
    simp only [nodupStr, Bool.and_eq_true, Bool.not_eq_true', decide_eq_false_iff_not] at h2
    have hk : k ≠ x := fun hc => h1 (by simp [hc])
    have hx : x ∉ xs ++ [k] := by
      intro hc
      rcases List.mem_append.mp hc with hc | hc
      · exact h2.1 hc
      · simp only [List.mem_singleton] at hc
        exact hk hc.symm
    simp only [List.cons_append, nodupStr, Bool.and_eq_true, Bool.not_eq_true',
      decide_eq_false_iff_not]
    exact ⟨hx, ih (fun hc => h1 (List.mem_cons_of_mem x hc)) h2.2⟩

/-! ## Navigation-tree update lemmas -/

lemma subtreeAt_node_cons (ch : List (String × ModuleTree)) (ed : List String)
    (q : String) (rest pref : List String) :
    subtreeAt (ModuleTree.node ch ed) (q :: rest) pref =
      match lookupChild ch (dotJoin (pref ++ [q])) with
      | none => none
      | some c => subtreeAt c rest (pref ++ [q]) := rfl

lemma edgesAt_node_cons (ch : List (String × ModuleTree)) (ed : List String)
    (q : String) (rest pref : List String) :
    edgesAt (ModuleTree.node ch ed) (q :: rest) pref =
      match lookupChild ch (dotJoin (pref ++ [q])) with
      | none => []
      | some c => edgesAt c rest (pref ++ [q]) := by
  unfold edgesAt
  rw [subtreeAt_node_cons]
  cases lookupChild ch (dotJoin (pref ++ [q])) <;> rfl

lemma edgesAt_empty_node (qs pref : List String) :
    edgesAt (ModuleTree.node [] []) qs pref = [] := by
  cases qs with
  | nil => rfl
  | cons q rest => rw [edgesAt_node_cons]; rfl

/-- Effect of one per-module tree walk on the `edges` of an arbitrary node:
only the node at exactly the walked path gains the appended entry (when one
is appended); every other node's `edges` are untouched. -/
lemma edgesAt_treeUpdate : ∀ (ps : List String) (t : ModuleTree) (pref qs : List String)
    (eo : Option String),
    edgesAt (treeUpdate t ps pref eo) qs pref =
      edgesAt t qs pref ++ if qs = ps then eo.toList else [] := by
  intro ps
  induction ps with
  | nil =>
    intro t pref qs eo
    obtain ⟨ch, ed⟩ := t
    cases eo with
    | none => simp [treeUpdate]
    | some e =>
      cases qs with
      | nil => simp [treeUpdate, edgesAt, subtreeAt, ModuleTree.edges]
      | cons q rest =>
        rw [show treeUpdate (ModuleTree.node ch ed) [] pref (some e)
            = ModuleTree.node ch (ed ++ [e]) from rfl]
        rw [edgesAt_node_cons, edgesAt_node_cons]
        simp

  | cons p ps' ih =>
    intro t pref qs eo
    obtain ⟨ch, ed⟩ := t
    rw [show treeUpdate (ModuleTree.node ch ed) (p :: ps') pref eo
        = ModuleTree.node
            (setChild ch (dotJoin (pref ++ [p]))
              (treeUpdate ((lookupChild ch (dotJoin (pref ++ [p]))).getD
                (ModuleTree.node [] [])) ps' (pref ++ [p]) eo)) ed from rfl]
    cases qs with
    | nil => simp [edgesAt, subtreeAt, ModuleTree.edges]
    | cons q rest =>
      rw [edgesAt_node_cons, edgesAt_node_cons]
      by_cases hq : q = p
      · subst hq
        rw [lookup_setChild_self]
        cases hl : lookupChild ch (dotJoin (pref ++ [q])) with
        | none =>
          simp only [hl, Option.getD_none]
          rw [ih (ModuleTree.node [] []) (pref ++ [q]) rest eo]
          rw [edgesAt_empty_node]
          simp [List.cons_eq_cons]
        | some c =>
          simp only [hl, Option.getD_some]
          rw [ih c (pref ++ [q]) rest eo]
          simp [List.cons_eq_cons]
      · rw [lookup_setChild_ne ch _ (dotJoin_snoc_ne pref hq)]
        have hne : (q :: rest) ≠ (p :: ps') := by
          intro hc
          exact hq (List.cons_eq_cons.mp hc).1
        rw [if_neg hne]
        cases lookupChild ch (dotJoin (pref ++ [q])) <;> simp

/-- Effect of one per-module tree walk on node existence: exactly the
non-empty prefixes of the walked path become present, everything else keeps
its previous status. -/
lemma subtreeAt_isSome_treeUpdate : ∀ (ps : List String) (t : ModuleTree)
    (pref qs : List String) (eo : Option String),
    (subtreeAt (treeUpdate t ps pref eo) qs pref).isSome =
      ((subtreeAt t qs pref).isSome || (!qs.isEmpty && isPfxOf qs ps)) := by
  intro ps
  induction ps with
  | nil =>
    intro t pref qs eo
    obtain ⟨ch, ed⟩ := t
    cases eo with
    | none =>
      cases qs with
      | nil => simp [treeUpdate, subtreeAt]
      | cons q rest => simp [treeUpdate, isPfxOf]
    | some e =>
      cases qs with
      | nil => simp [treeUpdate, subtreeAt]
      | cons q rest =>
        rw [show treeUpdate (ModuleTree.node ch ed) [] pref (some e)
            = ModuleTree.node ch (ed ++ [e]) from rfl]
        rw [subtreeAt_node_cons, subtreeAt_node_cons]
        simp [isPfxOf]
  | cons p ps' ih =>
    intro t pref qs eo
    obtain ⟨ch, ed⟩ := t
    rw [show treeUpdate (ModuleTree.node ch ed) (p :: ps') pref eo
        = ModuleTree.node
            (setChild ch (dotJoin (pref ++ [p]))
              (treeUpdate ((lookupChild ch (dotJoin (pref ++ [p]))).getD
                (ModuleTree.node [] [])) ps' (pref ++ [p]) eo)) ed from rfl]
    cases qs with
    | nil => simp [subtreeAt]
    | cons q rest =>
      rw [subtreeAt_node_cons, subtreeAt_node_cons]
      by_cases hq : q = p
      · subst hq
        rw [lookup_setChild_self]
        cases hl : lookupChild ch (dotJoin (pref ++ [q])) with
        | none =>
          simp only [hl, Option.getD_none]
          rw [show (subtreeAt (treeUpdate (ModuleTree.node [] []) ps' (pref ++ [q]) eo)
              rest (pref ++ [q])).isSome
              = ((subtreeAt (ModuleTree.node [] []) rest (pref ++ [q])).isSome
                || (!rest.isEmpty && isPfxOf rest ps')) from ih _ _ _ _]
          cases rest with
          | nil => simp [subtreeAt, isPfxOf]
          | cons r rs =>
            rw [subtreeAt_node_cons]
            simp [lookupChild, isPfxOf]
        | some c =>
          simp only [hl, Option.getD_some]
          rw [ih c (pref ++ [q]) rest eo]
          cases rest with
          | nil => simp [subtreeAt, isPfxOf]
          | cons r rs => simp [isPfxOf]
      · rw [lookup_setChild_ne ch _ (dotJoin_snoc_ne pref hq)]
        have : isPfxOf (q :: rest) (p :: ps') = false := by
          simp [isPfxOf, hq]
        rw [this]
        cases lookupChild ch (dotJoin (pref ++ [q])) <;> simp

/-- Every node of `t` (reached from prefix context `pref`) has distinct
children keys. -/
def keysInv (t : ModuleTree) (pref : List String) : Prop :=
  ∀ qs sub, subtreeAt t qs pref = some sub → nodupStr (childKeys sub) = true

lemma keysInv_empty (pref : List String) : keysInv (ModuleTree.node [] []) pref := by
  intro qs sub h
  cases qs with
  | nil =>
    simp only [subtreeAt, Option.some.injEq] at h
    subst h
    rfl
  | cons q rest =>
    rw [subtreeAt_node_cons] at h
    exact Option.noConfusion h

/-- `setdefault` never duplicates a key: one per-module walk preserves
distinctness of every node's children keys. -/
lemma keysInv_treeUpdate : ∀ (ps : List String) (t : ModuleTree) (pref : List String)
    (eo : Option String), keysInv t pref → keysInv (treeUpdate t ps pref eo) pref := by
  intro ps
  induction ps with
  | nil =>
    intro t pref eo hinv qs sub h
    obtain ⟨ch, ed⟩ := t
    cases eo with
    | none => exact hinv qs sub h
    | some e =>
      rw [show treeUpdate (ModuleTree.node ch ed) [] pref (some e)
          = ModuleTree.node ch (ed ++ [e]) from rfl] at h
      cases qs with
      | nil =>
        simp only [subtreeAt, Option.some.injEq] at h
        subst h
        have := hinv [] (ModuleTree.node ch ed) rfl
        simpa [childKeys, ModuleTree.children] using this
      | cons q rest =>
        rw [subtreeAt_node_cons] at h
        cases hl : lookupChild ch (dotJoin (pref ++ [q])) with
        | none => rw [hl] at h; exact Option.noConfusion h
        | some c =>
          rw [hl] at h
          apply hinv (q :: rest) sub
          rw [subtreeAt_node_cons]
          simp only [ModuleTree.children, hl]
          exact h
  | cons p ps' ih =>
    intro t pref eo hinv qs sub h
    obtain ⟨ch, ed⟩ := t
    rw [show treeUpdate (ModuleTree.node ch ed) (p :: ps') pref eo
        = ModuleTree.node
            (setChild ch (dotJoin (pref ++ [p]))
              (treeUpdate ((lookupChild ch (dotJoin (pref ++ [p]))).getD
                (ModuleTree.node [] [])) ps' (pref ++ [p]) eo)) ed from rfl] at h
    cases qs with
    | nil =>
      simp only [subtreeAt, Option.some.injEq] at h
      subst h
      simp only [childKeys, ModuleTree.children]
      rw [keys_setChild]
      by_cases hs : (lookupChild ch (dotJoin (pref ++ [p]))).isSome
      · rw [if_pos hs]
        have := hinv [] (ModuleTree.node ch ed) rfl
        simpa [childKeys, ModuleTree.children] using this
      · rw [if_neg hs]
        have hnone : lookupChild ch (dotJoin (pref ++ [p])) = none :=
          Option.not_isSome_iff_eq_none.mp hs
        have hnm : dotJoin (pref ++ [p]) ∉ ch.map Prod.fst :=
          (lookupChild_eq_none_iff ch _).mp hnone
        have hnd : nodupStr (ch.map Prod.fst) = true := by
          have := hinv [] (ModuleTree.node ch ed) rfl
          simpa [childKeys, ModuleTree.children] using this
        exact nodupStr_append_singleton hnm hnd
    | cons q rest =>
      rw [subtreeAt_node_cons] at h
      by_cases hq : q = p
      · subst hq
        rw [lookup_setChild_self] at h
        refine ih ((lookupChild ch (dotJoin (pref ++ [q]))).getD (ModuleTree.node [] []))
          (pref ++ [q]) eo ?_ rest sub h
        cases hl : lookupChild ch (dotJoin (pref ++ [q])) with
        | none => simpa [hl] using keysInv_empty (pref ++ [q])
        | some c =>
          simp only [hl, Option.getD_some]
          intro rs sub' h'
          apply hinv (q :: rs) sub'
          rw [subtreeAt_node_cons]
          simp only [ModuleTree.children, hl]
          exact h'
      · rw [lookup_setChild_ne ch _ (dotJoin_snoc_ne pref hq)] at h
        cases hl : lookupChild ch (dotJoin (pref ++ [q])) with
        | none => rw [hl] at h; exact Option.noConfusion h
        | some c =>
          rw [hl] at h
          apply hinv (q :: rest) sub
          rw [subtreeAt_node_cons]
          simp only [ModuleTree.children, hl]
          exact h

/-! ## Filesystem lemmas -/

lemma mkdir_tt (fs : FS) (p : List String) :
    FS.mkdir fs p true true = Except.ok (FS.mkdirAdd fs p) := by
  unfold FS.mkdir FS.mkdirAdd
  by_cases h : p ∈ fs.dirs <;> simp [h]

lemma dirs_writeFile (fs : FS) (p : List String) (c : String) :
    (FS.writeFile fs p c).dirs = fs.dirs := rfl

lemma files_addDir (fs : FS) (d : List String) : (FS.addDir fs d).files = fs.files := by
  unfold FS.addDir
  split <;> rfl

lemma files_foldl_addDir (l : List (List String)) : ∀ (fs : FS),
    (l.foldl FS.addDir fs).files = fs.files := by
  induction l with
  | nil => intro fs; rfl
  | cons d rest ih => intro fs; rw [List.foldl_cons, ih, files_addDir]

lemma files_mkdirAdd (fs : FS) (p : List String) : (FS.mkdirAdd fs p).files = fs.files := by
  unfold FS.mkdirAdd
  split
  · rfl
  · exact files_foldl_addDir _ _

lemma mem_dirs_addDir {fs : FS} {q : List String} (d : List String) (h : q ∈ fs.dirs) :
    q ∈ (FS.addDir fs d).dirs := by
  unfold FS.addDir
  split
  · exact h
  · simp [h]

lemma mem_dirs_foldl_addDir {q : List String} : ∀ (l : List (List String)) (fs : FS),
    (q ∈ fs.dirs ∨ q ∈ l) → q ∈ (l.foldl FS.addDir fs).dirs := by
  intro l
  induction l with
  | nil =>
    intro fs h
    rcases h with h | h
    · exact h
    · simp at h
  | cons d rest ih =>
    intro fs h
    rw [List.foldl_cons]
    apply ih
    rcases h with h | h
    · exact Or.inl (mem_dirs_addDir d h)
    · rcases List.mem_cons.mp h with h | h
      · subst h
        left
        unfold FS.addDir
        split
        · assumption
        · simp
      · exact Or.inr h

lemma mem_dirs_mkdirAdd_self (fs : FS) (p : List String) (hp : p ≠ []) :
    p ∈ (FS.mkdirAdd fs p).dirs := by
  unfold FS.mkdirAdd
  split
  · assumption
  · apply mem_dirs_foldl_addDir
    right
    unfold dirChain
    refine List.mem_map.mpr ⟨p.length - 1, ?_, ?_⟩
    · have : 0 < p.length := List.length_pos.mpr hp
      simp only [List.mem_range]
      omega
    · have : 0 < p.length := List.length_pos.mpr hp
      have he : p.length - 1 + 1 = p.length := by omega
      rw [he, List.take_length]

lemma mem_dirs_mkdirAdd {fs : FS} {q : List String} (p : List String) (h : q ∈ fs.dirs) :
    q ∈ (FS.mkdirAdd fs p).dirs := by
  unfold FS.mkdirAdd
  split
  · exact h
  · exact mem_dirs_foldl_addDir _ _ (Or.inl h)

lemma mkdirAdd_of_mem {fs : FS} {p : List String} (h : p ∈ fs.dirs) :
    FS.mkdirAdd fs p = fs := by
  unfold FS.mkdirAdd
  rw [if_pos h]

lemma lookup_setFileAssoc_self (fl : List (List String × String)) (p : List String)
    (c : String) : lookupFile (setFileAssoc fl p c) p = some c := by
  induction fl with
  | nil => simp [setFileAssoc, lookupFile]
  | cons hd tl ih =>
    obtain ⟨q, d⟩ := hd
    by_cases h : q = p
    · simp [setFileAssoc, h, lookupFile]
    · simp [setFileAssoc, h, lookupFile, ih]

lemma lookup_setFileAssoc_ne (fl : List (List String × String)) {p q : List String}
    (c : String) (h : q ≠ p) : lookupFile (setFileAssoc fl p c) q = lookupFile fl q := by
  induction fl with
  | nil =>
    have hk : ¬ p = q := fun hc => h hc.symm
    simp [setFileAssoc, lookupFile, hk]
  | cons hd tl ih =>
    obtain ⟨q0, d0⟩ := hd
    by_cases h0 : q0 = p
    · subst h0
      have hk : ¬ q0 = q := fun hc => h hc.symm
      simp [setFileAssoc, lookupFile, hk]
    · simp [setFileAssoc, h0, lookupFile, ih]

lemma readFile_writeFile_self (fs : FS) (p : List String) (c : String) :
    FS.readFile (FS.writeFile fs p c) p = some c :=
  lookup_setFileAssoc_self fs.files p c

lemma readFile_writeFile_ne (fs : FS) {p q : List String} (c : String) (h : q ≠ p) :
    FS.readFile (FS.writeFile fs p c) q = FS.readFile fs q :=
  lookup_setFileAssoc_ne fs.files c h

lemma readFile_mkdirAdd (fs : FS) (p q : List String) :
    FS.readFile (FS.mkdirAdd fs p) q = FS.readFile fs q := by
  unfold FS.readFile
  rw [files_mkdirAdd]

/-! ## Render-loop characterization -/

/-- The filesystem effect of one successfully processed module. -/
def modOp (cfg : Config) (r : Module → String × Option String) (m : Module) (fs : FS) : FS :=
  FS.writeFile (FS.mkdirAdd fs (dirPathOf cfg m)) (filePathOf cfg m) (r m).1

/-- The navigation-tree effect of one successfully processed module. -/
def treeOp (cfg : Config) (m : Module) (t : ModuleTree) : ModuleTree :=
  treeUpdate t (dirSegs m) [] (some (edgeOf cfg m))

lemma renderModule_eq (cfg : Config) (r : Module → String × Option String)
    (st : RState) (m : Module) :
    renderModule cfg r st m =
      ({ fs := FS.writeFile (FS.mkdirAdd st.fs (dirPathOf cfg m)) (filePathOf cfg m) (r m).1,
         tree := treeUpdate st.tree (dirSegs m) []
           (match (r m).2 with
            | none => some (edgeOf cfg m)
            | some _ => none) },
       (r m).2) := by
  unfold renderModule
  rw [mkdir_tt]
  rcases hr : r m with ⟨c, eo⟩
  cases eo <;> simp [hr]

lemma renderModule_ok (cfg : Config) (r : Module → String × Option String)
    (st : RState) (m : Module) (h : (r m).2 = none) :
    renderModule cfg r st m =
      ({ fs := modOp cfg r m st.fs, tree := treeOp cfg m st.tree }, none) := by
  rw [renderModule_eq, h]
  rfl

lemma renderLoop_ok (cfg : Config) (r : Module → String × Option String) :
    ∀ (mods : List Module) (st : RState), (∀ m ∈ mods, (r m).2 = none) →
    renderLoop cfg r mods st =
      ({ fs := mods.foldl (fun g x => modOp cfg r x g) st.fs,
         tree := mods.foldl (fun t x => treeOp cfg x t) st.tree }, none) := by
  intro mods
  induction mods with
  | nil => intro st _; rfl
  | cons m ms ih =>
    intro st hok
    have h1 : renderLoop cfg r (m :: ms) st
        = renderLoop cfg r ms { fs := modOp cfg r m st.fs, tree := treeOp cfg m st.tree } := by
      rw [show renderLoop cfg r (m :: ms) st
          = (match renderModule cfg r st m with
             | (st', none) => renderLoop cfg r ms st'
             | (st', some e) => (st', some e)) from rfl]
      rw [renderModule_ok cfg r st m (hok m (List.mem_cons_self m ms))]
    rw [h1, ih { fs := modOp cfg r m st.fs, tree := treeOp cfg m st.tree }
      (fun x hx => hok x (List.mem_cons_of_mem m hx))]
    rfl

lemma renderLoop_err_none (cfg : Config) (r : Module → String × Option String) :
    ∀ (mods : List Module) (st st' : RState), renderLoop cfg r mods st = (st', none) →
    ∀ m ∈ mods, (r m).2 = none := by
  intro mods
  induction mods with
  | nil => intro st st' _ m hm; simp at hm
  | cons m0 ms ih =>
    intro st st' hloop m hm
    rw [show renderLoop cfg r (m0 :: ms) st
        = (match renderModule cfg r st m0 with
           | (st1, none) => renderLoop cfg r ms st1
           | (st1, some e) => (st1, some e)) from rfl] at hloop
    rw [renderModule_eq] at hloop
    cases he : (r m0).2 with
    | some e =>
      rw [he] at hloop
      simp at hloop
    | none =>
      rw [he] at hloop
      rcases List.mem_cons.mp hm with h | h
      · subst h; exact he
      · exact ih _ st' hloop m h

lemma renderLoop_append (cfg : Config) (r : Module → String × Option String) :
    ∀ (xs ys : List Module) (st : RState),
    renderLoop cfg r (xs ++ ys) st =
      (match renderLoop cfg r xs st with
       | (st', none) => renderLoop cfg r ys st'
       | (st', some e) => (st', some e)) := by
  intro xs
  induction xs with
  | nil => intro ys st; rfl
  | cons m ms ih =>
    intro ys st
    rw [List.cons_append]
    rw [show renderLoop cfg r (m :: (ms ++ ys)) st
        = (match renderModule cfg r st m with
           | (st1, none) => renderLoop cfg r (ms ++ ys) st1
           | (st1, some e) => (st1, some e)) from rfl]
    rw [show renderLoop cfg r (m :: ms) st
        = (match renderModule cfg r st m with
           | (st1, none) => renderLoop cfg r ms st1
           | (st1, some e) => (st1, some e)) from rfl]
    rcases renderModule cfg r st m with ⟨st1, eo⟩
    cases eo with
    | none => simp only []; exact ih ys st1
    | some e => rfl

/-- The content of the most recent write to `p` among `mods` (input order). -/
def lastWriteOf (cfg : Config) (r : Module → String × Option String)
    (mods : List Module) (p : List String) : Option String :=
  (mods.reverse.find? (fun m => decide (filePathOf cfg m = p))).map (fun m => (r m).1)

lemma readFile_modOp (cfg : Config) (r : Module → String × Option String)
    (m : Module) (fs : FS) (q : List String) :
    FS.readFile (modOp cfg r m fs) q =
      if filePathOf cfg m = q then some (r m).1 else FS.readFile fs q := by
  unfold modOp
  by_cases h : filePathOf cfg m = q
  · rw [if_pos h, h, readFile_writeFile_self]
  · rw [if_neg h, readFile_writeFile_ne _ _ (fun hc => h hc.symm), readFile_mkdirAdd]

lemma readFile_foldl_modOp (cfg : Config) (r : Module → String × Option String) :
    ∀ (mods : List Module) (fs : FS) (q : List String),
    FS.readFile (mods.foldl (fun g x => modOp cfg r x g) fs) q =
      (match lastWriteOf cfg r mods q with
       | some c => some c
       | none => FS.readFile fs q) := by
  intro mods
  induction mods with
  | nil => intro fs q; rfl
  | cons m ms ih =>
    intro fs q
    rw [List.foldl_cons, ih]
    unfold lastWriteOf
    rw [List.reverse_cons, List.find?_append]
    cases hf : ms.reverse.find? (fun x => decide (filePathOf cfg x = q)) with
    | some x => rfl
    | none =>
      simp only [Option.none_or]
      rw [readFile_modOp]
      by_cases h : filePathOf cfg m = q
      · rw [if_pos h]
        simp [List.find?_cons, h]
      · rw [if_neg h]
        simp [List.find?_cons, h]

lemma dirs_modOp_mono (cfg : Config) (r : Module → String × Option String)
    (m : Module) {fs : FS} {q : List String} (h : q ∈ fs.dirs) :
    q ∈ (modOp cfg r m fs).dirs := by
  unfold modOp
  rw [dirs_writeFile]
  exact mem_dirs_mkdirAdd _ h

lemma dirs_foldl_modOp_mono (cfg : Config) (r : Module → String × Option String) :
    ∀ (mods : List Module) (fs : FS) (q : List String), q ∈ fs.dirs →
    q ∈ (mods.foldl (fun g x => modOp cfg r x g) fs).dirs := by
  intro mods
  induction mods with
  | nil => intro fs q h; exact h
  | cons m ms ih =>
    intro fs q h
    rw [List.foldl_cons]
    exact ih _ q (dirs_modOp_mono cfg r m h)

lemma dirPathOf_ne_nil (cfg : Config) (m : Module) : dirPathOf cfg m ≠ [] := by
  unfold dirPathOf
  exact List.cons_ne_nil _ _

lemma dirPath_mem_after (cfg : Config) (r : Module → String × Option String) :
    ∀ (mods : List Module) (fs : FS) (m : Module), m ∈ mods →
    dirPathOf cfg m ∈ (mods.foldl (fun g x => modOp cfg r x g) fs).dirs := by
  intro mods
  induction mods with
  | nil => intro fs m h; simp at h
  | cons m0 ms ih =>
    intro fs m h
    rw [List.foldl_cons]
    rcases List.mem_cons.mp h with h | h
    · subst h
      apply dirs_foldl_modOp_mono
      unfold modOp
      rw [dirs_writeFile]
      exact mem_dirs_mkdirAdd_self _ _ (dirPathOf_ne_nil cfg m)
    · exact ih _ m h

lemma modOp_dirs_of_mem (cfg : Config) (r : Module → String × Option String)
    (m : Module) {fs : FS} (h : dirPathOf cfg m ∈ fs.dirs) :
    (modOp cfg r m fs).dirs = fs.dirs := by
  unfold modOp
  rw [dirs_writeFile, mkdirAdd_of_mem h]

lemma foldl_modOp_dirs_stable (cfg : Config) (r : Module → String × Option String) :
    ∀ (mods : List Module) (fs : FS), (∀ m ∈ mods, dirPathOf cfg m ∈ fs.dirs) →
    (mods.foldl (fun g x => modOp cfg r x g) fs).dirs = fs.dirs := by
  intro mods
  induction mods with
  | nil => intro fs _; rfl
  | cons m ms ih =>
    intro fs h
    rw [List.foldl_cons]
    have hd : (modOp cfg r m fs).dirs = fs.dirs :=
      modOp_dirs_of_mem cfg r m (h m (List.mem_cons_self m ms))
    rw [ih (modOp cfg r m fs) (fun x hx => by
      rw [hd]; exact h x (List.mem_cons_of_mem m hx)), hd]

/-! ## Navigation tree over the whole loop -/

lemma subtreeAt_isSome_foldl_treeOp (cfg : Config) :
    ∀ (mods : List Module) (t : ModuleTree) (qs : List String),
    (subtreeAt (mods.foldl (fun tt x => treeOp cfg x tt) t) qs []).isSome =
      ((subtreeAt t qs []).isSome
        || mods.any (fun m => !qs.isEmpty && isPfxOf qs (dirSegs m))) := by
  intro mods
  induction mods with
  | nil => intro t qs; simp
  | cons m ms ih =>
    intro t qs
    rw [List.foldl_cons, ih]
    unfold treeOp
    rw [subtreeAt_isSome_treeUpdate]
    simp [Bool.or_assoc]

lemma edgesAt_foldl_treeOp (cfg : Config) :
    ∀ (mods : List Module) (t : ModuleTree) (qs : List String),
    edgesAt (mods.foldl (fun tt x => treeOp cfg x tt) t) qs [] =
      edgesAt t qs [] ++ (mods.filter (fun m => decide (dirSegs m = qs))).map (edgeOf cfg) := by
  intro mods
  induction mods with
  | nil => intro t qs; simp
  | cons m ms ih =>
    intro t qs
    rw [List.foldl_cons, ih]
    unfold treeOp
    rw [edgesAt_treeUpdate]
    by_cases h : dirSegs m = qs
    · rw [if_pos h.symm]
      rw [List.filter_cons_of_pos (by simpa using h)]
      simp
    · rw [if_neg (fun hc => h hc.symm)]
      rw [List.filter_cons_of_neg (by simpa using h)]
      simp

lemma keysInv_foldl_treeOp (cfg : Config) :
    ∀ (mods : List Module) (t : ModuleTree), keysInv t [] →
    keysInv (mods.foldl (fun tt x => treeOp cfg x tt) t) [] := by
  intro mods
  induction mods with
  | nil => intro t h; exact h
  | cons m ms ih =>
    intro t h
    rw [List.foldl_cons]
    exact ih _ (keysInv_treeUpdate (dirSegs m) t [] _ h)

lemma pfxChars_self_append : ∀ (l r : List Char), pfxChars l (l ++ r) = true := by
  intro l r
  induction l with
  | nil => rfl
  | cons a as ih => simp [pfxChars, ih]

lemma endsWithPy_append (pre t : String) : endsWithPy (pre ++ t) t = true := by
  unfold endsWithPy
  rw [str_data_append, List.reverse_append]
  exact pfxChars_self_append _ _

/-! ## Shared per-module facts -/

/-- Package-initializer case, shared shape: the synthetic `__init__` part is
appended, the page lands inside the directory of the full dotted name, and
that directory is created. -/
lemma renderModule_init_case (cfg : Config) (r : Module → String × Option String)
    (st : RState) (m : Module) (content : String)
    (hin : endsWithPy m.filename "__init__.py" = true)
    (hr : r m = (content, none)) :
    moduleParts m = pySplitDot m.name ++ ["__init__"] ∧
    filePathOf cfg m =
      cfg.docs_base_path :: cfg.relative_output_path ::
        (pySplitDot m.name ++ ["__init__.md"]) ∧
    (renderModule cfg r st m).2 = none ∧
    FS.readFile (renderModule cfg r st m).1.fs (filePathOf cfg m) = some content ∧
    FS.hasDir (renderModule cfg r st m).1.fs
      (cfg.docs_base_path :: cfg.relative_output_path :: pySplitDot m.name) = true := by
  have hmp : moduleParts m = pySplitDot m.name ++ ["__init__"] := by
    unfold moduleParts
    rw [if_pos hin]
  have hds : dirSegs m = pySplitDot m.name := by
    unfold dirSegs
    rw [hmp, List.dropLast_concat]
  have hls : lastSeg m = "__init__" := by
    unfold lastSeg
    rw [hmp, List.getLastD_concat]
  have hfp : filePathOf cfg m =
      cfg.docs_base_path :: cfg.relative_output_path ::
        (pySplitDot m.name ++ ["__init__.md"]) := by
    unfold filePathOf dirPathOf
    rw [hds, hls]
    rfl
  have h2 : (r m).2 = none := by rw [hr]
  have h1 : (r m).1 = content := by rw [hr]
  rw [renderModule_ok cfg r st m h2]
  refine ⟨hmp, hfp, rfl, ?_, ?_⟩
  · rw [readFile_modOp, if_pos rfl, h1]
  · have hmem : dirPathOf cfg m ∈ (modOp cfg r m st.fs).dirs := by
      unfold modOp
      rw [dirs_writeFile]
      exact mem_dirs_mkdirAdd_self _ _ (dirPathOf_ne_nil cfg m)
    have hpath : cfg.docs_base_path :: cfg.relative_output_path :: pySplitDot m.name
        = dirPathOf cfg m := by
      unfold dirPathOf
      rw [hds]
    unfold FS.hasDir
    rw [hpath]
    exact decide_eq_true hmem

/-! ## Claim C1 -/

/-- C1: for a module whose source file is not a package initializer, the page
is written (with the delegated content) to `docs_base_path /
relative_output_path / <first k-1 name components> / <last component>.md`,
and no other file changes. -/
theorem C1_output_path (cfg : Config) (r : Module → String × Option String)
    (st : RState) (m : Module) (content : String)
    (hni : endsWithPy m.filename "__init__.py" = false)
    (hr : r m = (content, none)) :
    (renderModule cfg r st m).2 = none ∧
    filePathOf cfg m =
      cfg.docs_base_path :: cfg.relative_output_path ::
        ((pySplitDot m.name).take ((pySplitDot m.name).length - 1)
          ++ [(pySplitDot m.name).getLastD "" ++ ".md"]) ∧
    FS.readFile (renderModule cfg r st m).1.fs (filePathOf cfg m) = some content ∧
    (∀ q, q ≠ filePathOf cfg m →
      FS.readFile (renderModule cfg r st m).1.fs q = FS.readFile st.fs q) := by
  have hmp : moduleParts m = pySplitDot m.name := by
    unfold moduleParts
    rw [if_neg (by rw [hni]; exact Bool.false_ne_true)]
  have h2 : (r m).2 = none := by rw [hr]
  have h1 : (r m).1 = content := by rw [hr]
  rw [renderModule_ok cfg r st m h2]
  refine ⟨rfl, ?_, ?_, ?_⟩
  · unfold filePathOf dirPathOf dirSegs lastSeg
    rw [hmp, List.dropLast_eq_take]
    rfl
  · rw [readFile_modOp, if_pos rfl, h1]
  · intro q hq
    rw [readFile_modOp, if_neg (fun hc => hq hc.symm)]

theorem C1_output_path_witness :
    endsWithPy "a/b.py" "__init__.py" = false ∧
    FS.readFile
      (renderModule ({} : Config) (fun _ => ("hello", none))
        { fs := FS.mk [] [], tree := ModuleTree.node [] [] }
        (Module.mk "a.b" "a/b.py")).1.fs
      (filePathOf ({} : Config) (Module.mk "a.b" "a/b.py")) = some "hello" :=
  ⟨rfl,
    (C1_output_path ({} : Config) (fun _ => ("hello", none))
      { fs := FS.mk [] [], tree := ModuleTree.node [] [] }
      (Module.mk "a.b" "a/b.py") "hello" rfl rfl).2.2.1⟩

/-! ## Claim C2 -/

/-- C2: processing one module appends exactly one entry, to the `edges` of
the deepest node reached (the node at the module's directory components); the
entry is the file path relative to `docs_base_path` with the `.md` extension
stripped, and it is appended regardless of the written content (which may be
empty); every other node's `edges` are unchanged. -/
theorem C2_edge_appended (cfg : Config) (r : Module → String × Option String)
    (st : RState) (m : Module) (content : String)
    (hr : r m = (content, none)) (hl : lastSeg m ≠ "") :
    (renderModule cfg r st m).2 = none ∧
    edgeOf cfg m = slashJoin (cfg.relative_output_path :: (dirSegs m ++ [lastSeg m])) ∧
    edgesAt (renderModule cfg r st m).1.tree (dirSegs m) [] =
      edgesAt st.tree (dirSegs m) [] ++ [edgeOf cfg m] ∧
    (∀ qs, qs ≠ dirSegs m →
      edgesAt (renderModule cfg r st m).1.tree qs [] = edgesAt st.tree qs []) := by
  have h2 : (r m).2 = none := by rw [hr]
  rw [renderModule_ok cfg r st m h2]
  refine ⟨rfl, ?_, ?_, ?_⟩
  · unfold edgeOf
    rw [splitextFst_lastSeg m hl]
  · unfold treeOp
    rw [edgesAt_treeUpdate, if_pos rfl]
    rfl
  · intro qs hqs
    unfold treeOp
    rw [edgesAt_treeUpdate, if_neg hqs]
    simp

theorem C2_edge_appended_witness :
    ((fun _ => ("", none)) : Module → String × Option String) (Module.mk "a.b" "a/b.py")
        = ("", none) ∧
    lastSeg (Module.mk "a.b" "a/b.py") ≠ "" ∧
    edgesAt
      (renderModule ({} : Config) (fun _ => ("", none))
        { fs := FS.mk [] [], tree := ModuleTree.node [] [] }
        (Module.mk "a.b" "a/b.py")).1.tree
      (dirSegs (Module.mk "a.b" "a/b.py")) [] =
      edgesAt (ModuleTree.node [] []) (dirSegs (Module.mk "a.b" "a/b.py")) []
        ++ [edgeOf ({} : Config) (Module.mk "a.b" "a/b.py")] :=
  ⟨rfl, by decide,
    (C2_edge_appended ({} : Config) (fun _ => ("", none))
      { fs := FS.mk [] [], tree := ModuleTree.node [] [] }
      (Module.mk "a.b" "a/b.py") "" rfl (by decide)).2.2.1⟩

/-! ## Claim C3 -/

/-- C3: for a package initializer, the synthetic `__init__` component is
appended before the path computation, so the page is written as
`__init__.md` inside the directory of the module's full dotted name (which is
created), not as a sibling of it. -/
theorem C3_package_init (cfg : Config) (r : Module → String × Option String)
    (st : RState) (m : Module) (content : String)
    (hin : endsWithPy m.filename "__init__.py" = true)
    (hr : r m = (content, none)) :
    moduleParts m = pySplitDot m.name ++ ["__init__"] ∧
    filePathOf cfg m =
      cfg.docs_base_path :: cfg.relative_output_path ::
        (pySplitDot m.name ++ ["__init__.md"]) ∧
    (renderModule cfg r st m).2 = none ∧
    FS.readFile (renderModule cfg r st m).1.fs (filePathOf cfg m) = some content ∧
    FS.hasDir (renderModule cfg r st m).1.fs
      (cfg.docs_base_path :: cfg.relative_output_path :: pySplitDot m.name) = true :=
  renderModule_init_case cfg r st m content hin hr

theorem C3_package_init_witness :
    endsWithPy "pkg/__init__.py" "__init__.py" = true ∧
    moduleParts (Module.mk "pkg" "pkg/__init__.py") = pySplitDot "pkg" ++ ["__init__"] ∧
    FS.readFile
      (renderModule ({} : Config) (fun _ => ("doc", none))
        { fs := FS.mk [] [], tree := ModuleTree.node [] [] }
        (Module.mk "pkg" "pkg/__init__.py")).1.fs
      (filePathOf ({} : Config) (Module.mk "pkg" "pkg/__init__.py")) = some "doc" :=
  ⟨rfl,
    (C3_package_init ({} : Config) (fun _ => ("doc", none))
      { fs := FS.mk [] [], tree := ModuleTree.node [] [] }
      (Module.mk "pkg" "pkg/__init__.py") "doc" rfl rfl).1,
    (C3_package_init ({} : Config) (fun _ => ("doc", none))
      { fs := FS.mk [] [], tree := ModuleTree.node [] [] }
      (Module.mk "pkg" "pkg/__init__.py") "doc" rfl rfl).2.2.2.1⟩

/-! ## Claim C9 -/

/-- C9: the package-initializer test is a plain suffix match against the
literal `"__init__.py"`; any filename of the form `pre ++ "__init__.py"`
(for example `"custom__init__.py"`) triggers the synthetic `__init__`
component and places the page inside the directory named after the module's
full dotted name. -/
theorem C9_suffix_match (cfg : Config) (r : Module → String × Option String)
    (st : RState) (m : Module) (content : String) (pre : String)
    (hf : m.filename = pre ++ "__init__.py")
    (hr : r m = (content, none)) :
    endsWithPy m.filename "__init__.py" = true ∧
    moduleParts m = pySplitDot m.name ++ ["__init__"] ∧
    filePathOf cfg m =
      cfg.docs_base_path :: cfg.relative_output_path ::
        (pySplitDot m.name ++ ["__init__.md"]) ∧
    FS.readFile (renderModule cfg r st m).1.fs (filePathOf cfg m) = some content := by
  have hin : endsWithPy m.filename "__init__.py" = true := by
    rw [hf]
    exact endsWithPy_append pre "__init__.py"
  obtain ⟨ha, hb, _, hd, _⟩ := renderModule_init_case cfg r st m content hin hr
  exact ⟨hin, ha, hb, hd⟩

theorem C9_suffix_match_witness :
    ("custom__init__.py" : String) = "custom" ++ "__init__.py" ∧
    endsWithPy "custom__init__.py" "__init__.py" = true ∧
    moduleParts (Module.mk "m" "custom__init__.py") = pySplitDot "m" ++ ["__init__"] :=
  ⟨rfl,
    (C9_suffix_match ({} : Config) (fun _ => ("x", none))
      { fs := FS.mk [] [], tree := ModuleTree.node [] [] }
      (Module.mk "m" "custom__init__.py") "x" "custom" rfl rfl).1,
    (C9_suffix_match ({} : Config) (fun _ => ("x", none))
      { fs := FS.mk [] [], tree := ModuleTree.node [] [] }
      (Module.mk "m" "custom__init__.py") "x" "custom" rfl rfl).2.1⟩

/-! ## Claim C10 -/

/-- C10: on an empty module list, `render` touches nothing: the filesystem is
returned unchanged (no directory created, no file opened, the collaborator
never invoked) and the navigation tree is the bare root
`{children: {}, edges: []}`. -/
theorem C10_empty_input (cfg : Config) (r : Module → String × Option String) (fs : FS) :
    render cfg r [] fs = ({ fs := fs, tree := ModuleTree.node [] [] }, none) := rfl

/-! ## Claim C4 -/

/-- C4: after a successful `render`, a non-root navigation node exists at a
component path exactly when that path is a non-empty prefix of some input
module's intermediate components (the proper prefixes of its possibly
`__init__`-augmented part list), and every node's children keys are distinct
(`setdefault` creates each prefix node exactly once, no matter how many
modules share it). -/
theorem C4_node_set (cfg : Config) (r : Module → String × Option String)
    (mods : List Module) (fs : FS)
    (hok : ∀ m ∈ mods, (r m).2 = none) :
    (∀ qs, qs ≠ [] →
      ((subtreeAt (render cfg r mods fs).1.tree qs []).isSome = true ↔
        ∃ m ∈ mods, isPfxOf qs (dirSegs m) = true)) ∧
    (∀ qs sub, subtreeAt (render cfg r mods fs).1.tree qs [] = some sub →
      nodupStr (childKeys sub) = true) := by
  have htree : (render cfg r mods fs).1.tree
      = mods.foldl (fun t x => treeOp cfg x t) (ModuleTree.node [] []) := by
    unfold render
    rw [renderLoop_ok cfg r mods _ hok]
  rw [htree]
  constructor
  · intro qs hqs
    rw [subtreeAt_isSome_foldl_treeOp]
    have hempty : (subtreeAt (ModuleTree.node [] []) qs []).isSome = false := by
      cases qs with
      | nil => exact absurd rfl hqs
      | cons q rest => rw [subtreeAt_node_cons]; rfl
    have hne : qs.isEmpty = false := by
      cases qs with
      | nil => exact absurd rfl hqs
      | cons q rest => rfl
    rw [hempty, Bool.false_or]
    simp only [hne, Bool.not_false, Bool.true_and, List.any_eq_true]
  · intro qs sub hsub
    exact keysInv_foldl_treeOp cfg mods _ (keysInv_empty []) qs sub hsub

theorem C4_node_set_witness :
    (∀ m ∈ [Module.mk "a.b.c" "f.py", Module.mk "a.d" "g.py"],
      (((fun _ => ("x", none)) : Module → String × Option String) m).2 = none) ∧
    ((subtreeAt
        (render ({} : Config) (fun _ => ("x", none))
          [Module.mk "a.b.c" "f.py", Module.mk "a.d" "g.py"] (FS.mk [] [])).1.tree
        ["a"] []).isSome = true ↔
      ∃ m ∈ [Module.mk "a.b.c" "f.py", Module.mk "a.d" "g.py"],
        isPfxOf ["a"] (dirSegs m) = true) :=
  ⟨by decide,
    (C4_node_set ({} : Config) (fun _ => ("x", none))
      [Module.mk "a.b.c" "f.py", Module.mk "a.d" "g.py"] (FS.mk [] [])
      (by decide)).1 ["a"] (by decide)⟩

/-! ## Claim C6 -/

/-- C6: for a successful `render`, the `edges` of any navigation node are
exactly the edge entries of the input modules mapping to that node, in input
order (the tree records as it goes and is never re-sorted). -/
theorem C6_edge_order (cfg : Config) (r : Module → String × Option String)
    (mods : List Module) (fs : FS)
    (hok : ∀ m ∈ mods, (r m).2 = none) :
    ∀ qs, edgesAt (render cfg r mods fs).1.tree qs [] =
      (mods.filter (fun m => decide (dirSegs m = qs))).map (edgeOf cfg) := by
  have htree : (render cfg r mods fs).1.tree
      = mods.foldl (fun t x => treeOp cfg x t) (ModuleTree.node [] []) := by
    unfold render
    rw [renderLoop_ok cfg r mods _ hok]
  intro qs
  rw [htree, edgesAt_foldl_treeOp, edgesAt_empty_node, List.nil_append]

theorem C6_edge_order_witness :
    (∀ m ∈ [Module.mk "a.b" "f.py", Module.mk "c" "g.py", Module.mk "a.d" "h.py"],
      (((fun _ => ("x", none)) : Module → String × Option String) m).2 = none) ∧
    (∀ qs, edgesAt
        (render ({} : Config) (fun _ => ("x", none))
          [Module.mk "a.b" "f.py", Module.mk "c" "g.py", Module.mk "a.d" "h.py"]
          (FS.mk [] [])).1.tree qs [] =
      (([Module.mk "a.b" "f.py", Module.mk "c" "g.py", Module.mk "a.d" "h.py"].filter
          (fun m => decide (dirSegs m = qs))).map (edgeOf ({} : Config)))) :=
  ⟨by decide,
    C6_edge_order ({} : Config) (fun _ => ("x", none))
      [Module.mk "a.b" "f.py", Module.mk "c" "g.py", Module.mk "a.d" "h.py"]
      (FS.mk [] []) (by decide)⟩

/-! ## Claim C7 -/

/-- C7: re-running `render` over the same modules on the filesystem produced
by a successful first run raises no error (directory creation is idempotent:
every target directory already exists and `exist_ok` suppresses the error),
rebuilds the same navigation tree, leaves the directory set unchanged, and
overwrites each file with the same content (truncating open, not append). -/
theorem C7_rerun (cfg : Config) (r : Module → String × Option String)
    (mods : List Module) (fs0 : FS) (st1 : RState)
    (h : render cfg r mods fs0 = (st1, none)) :
    (render cfg r mods st1.fs).2 = none ∧
    (render cfg r mods st1.fs).1.tree = st1.tree ∧
    (∀ p, FS.readFile (render cfg r mods st1.fs).1.fs p = FS.readFile st1.fs p) ∧
    (∀ p, FS.hasDir (render cfg r mods st1.fs).1.fs p = FS.hasDir st1.fs p) := by
  have hok : ∀ m ∈ mods, (r m).2 = none := by
    apply renderLoop_err_none cfg r mods { fs := fs0, tree := ModuleTree.node [] [] } st1
    exact h
  have hst1 : st1 = { fs := mods.foldl (fun g x => modOp cfg r x g) fs0,
                      tree := mods.foldl (fun t x => treeOp cfg x t)
                        (ModuleTree.node [] []) } := by
    unfold render at h
    rw [renderLoop_ok cfg r mods _ hok] at h
    have h1 := congrArg Prod.fst h
    simpa using h1.symm
  have h2 := renderLoop_ok cfg r mods { fs := st1.fs, tree := ModuleTree.node [] [] } hok
  refine ⟨?_, ?_, ?_, ?_⟩
  · unfold render
    rw [h2]
  · unfold render
    rw [h2]
    show mods.foldl (fun t x => treeOp cfg x t) (ModuleTree.node [] []) = st1.tree
    rw [hst1]
  · intro p
    unfold render
    rw [h2]
    show FS.readFile (mods.foldl (fun g x => modOp cfg r x g) st1.fs) p
        = FS.readFile st1.fs p
    rw [readFile_foldl_modOp]
    cases hlw : lastWriteOf cfg r mods p with
    | none => rfl
    | some c =>
      show some c = FS.readFile st1.fs p
      rw [hst1]
      show some c = FS.readFile (mods.foldl (fun g x => modOp cfg r x g) fs0) p
      rw [readFile_foldl_modOp, hlw]
  · intro p
    unfold render
    rw [h2]
    show FS.hasDir (mods.foldl (fun g x => modOp cfg r x g) st1.fs) p
        = FS.hasDir st1.fs p
    have hdirs : (mods.foldl (fun g x => modOp cfg r x g) st1.fs).dirs = st1.fs.dirs := by
      apply foldl_modOp_dirs_stable
      intro m hm
      rw [hst1]
      exact dirPath_mem_after cfg r mods fs0 m hm
    unfold FS.hasDir
    rw [hdirs]

theorem C7_rerun_witness :
    render ({} : Config) (fun _ => ("w", none))
        [Module.mk "a.b" "a/b.py", Module.mk "c" "c.py"] (FS.mk [] [])
      = ((render ({} : Config) (fun _ => ("w", none))
          [Module.mk "a.b" "a/b.py", Module.mk "c" "c.py"] (FS.mk [] [])).1, none) ∧
    (render ({} : Config) (fun _ => ("w", none))
      [Module.mk "a.b" "a/b.py", Module.mk "c" "c.py"]
      (render ({} : Config) (fun _ => ("w", none))
        [Module.mk "a.b" "a/b.py", Module.mk "c" "c.py"] (FS.mk [] [])).1.fs).2 = none :=
  ⟨rfl,
    (C7_rerun ({} : Config) (fun _ => ("w", none))
      [Module.mk "a.b" "a/b.py", Module.mk "c" "c.py"] (FS.mk [] [])
      (render ({} : Config) (fun _ => ("w", none))
        [Module.mk "a.b" "a/b.py", Module.mk "c" "c.py"] (FS.mk [] [])).1 rfl).1⟩

/-! ## Claim C8 -/

lemma renderLoop_first_err (cfg : Config) (r : Module → String × Option String)
    (m : Module) (ms2 : List Module) (st : RState) (pContent e : String)
    (h2 : r m = (pContent, some e)) :
    renderLoop cfg r (m :: ms2) st =
      ({ fs := FS.writeFile (FS.mkdirAdd st.fs (dirPathOf cfg m))
           (filePathOf cfg m) pContent,
         tree := treeUpdate st.tree (dirSegs m) [] none }, some e) := by
  rw [show renderLoop cfg r (m :: ms2) st
      = (match renderModule cfg r st m with
         | (st', none) => renderLoop cfg r ms2 st'
         | (st', some e) => (st', some e)) from rfl]
  rw [renderModule_eq, h2]

/-- C8: when the delegated text-renderer raises on a module, `render`
propagates the exception at once: the whole run equals the run truncated at
the failing module (no later module is processed), the error is the
collaborator's, the partially written file for the failing module is left on
disk, and no navigation edge is recorded for it (any node's `edges` equal
those after the successful prefix alone). -/
theorem C8_error_propagation (cfg : Config) (r : Module → String × Option String)
    (ms1 : List Module) (m : Module) (ms2 : List Module) (fs0 : FS)
    (pContent e : String)
    (h1 : ∀ x ∈ ms1, (r x).2 = none)
    (h2 : r m = (pContent, some e)) :
    render cfg r (ms1 ++ m :: ms2) fs0 = render cfg r (ms1 ++ [m]) fs0 ∧
    (render cfg r (ms1 ++ m :: ms2) fs0).2 = some e ∧
    FS.readFile (render cfg r (ms1 ++ m :: ms2) fs0).1.fs (filePathOf cfg m)
      = some pContent ∧
    (∀ qs, edgesAt (render cfg r (ms1 ++ m :: ms2) fs0).1.tree qs []
      = edgesAt (render cfg r ms1 fs0).1.tree qs []) := by
  have hA := renderLoop_ok cfg r ms1 { fs := fs0, tree := ModuleTree.node [] [] } h1
  have hfull : renderLoop cfg r (ms1 ++ m :: ms2) { fs := fs0, tree := ModuleTree.node [] [] }
      = ({ fs := FS.writeFile
             (FS.mkdirAdd (ms1.foldl (fun g x => modOp cfg r x g) fs0) (dirPathOf cfg m))
             (filePathOf cfg m) pContent,
           tree := treeUpdate (ms1.foldl (fun t x => treeOp cfg x t) (ModuleTree.node [] []))
             (dirSegs m) [] none }, some e) := by
    rw [renderLoop_append cfg r ms1 (m :: ms2), hA]
    exact renderLoop_first_err cfg r m ms2 _ pContent e h2
  have hshort : renderLoop cfg r (ms1 ++ [m]) { fs := fs0, tree := ModuleTree.node [] [] }
      = ({ fs := FS.writeFile
             (FS.mkdirAdd (ms1.foldl (fun g x => modOp cfg r x g) fs0) (dirPathOf cfg m))
             (filePathOf cfg m) pContent,
           tree := treeUpdate (ms1.foldl (fun t x => treeOp cfg x t) (ModuleTree.node [] []))
             (dirSegs m) [] none }, some e) := by
    rw [renderLoop_append cfg r ms1 [m], hA]
    exact renderLoop_first_err cfg r m [] _ pContent e h2
  refine ⟨?_, ?_, ?_, ?_⟩
  · unfold render
    rw [hfull, hshort]
  · unfold render
    rw [hfull]
  · unfold render
    rw [hfull]
    exact readFile_writeFile_self _ _ _
  · intro qs
    unfold render
    rw [hfull, hA]
    show edgesAt (treeUpdate (ms1.foldl (fun t x => treeOp cfg x t) (ModuleTree.node [] []))
        (dirSegs m) [] none) qs []
      = edgesAt (ms1.foldl (fun t x => treeOp cfg x t) (ModuleTree.node [] [])) qs []
    rw [edgesAt_treeUpdate]
    split <;> simp

theorem C8_error_propagation_witness :
    (∀ x ∈ [Module.mk "a.b" "f.py"],
      (((fun mo => if mo.name = "a.c" then ("part", some "boom") else ("ok", none))
        : Module → String × Option String) x).2 = none) ∧
    ((fun mo => if mo.name = "a.c" then ("part", some "boom") else ("ok", none))
      : Module → String × Option String) (Module.mk "a.c" "g.py") = ("part", some "boom") ∧
    (render ({} : Config)
      (fun mo => if mo.name = "a.c" then ("part", some "boom") else ("ok", none))
      ([Module.mk "a.b" "f.py"] ++ Module.mk "a.c" "g.py" :: [Module.mk "d" "h.py"])
      (FS.mk [] [])).2 = some "boom" :=
  ⟨by decide, by decide,
    (C8_error_propagation ({} : Config)
      (fun mo => if mo.name = "a.c" then ("part", some "boom") else ("ok", none))
      [Module.mk "a.b" "f.py"] (Module.mk "a.c" "g.py") [Module.mk "d" "h.py"]
      (FS.mk [] []) "part" "boom" (by decide) (by decide)).2.1⟩

/-! ## Claim C5 (corrected) -/

/-- C5 as stated is false: the recorded edges are the file paths relative to
`docs_base_path`, so they retain the `relative_output_path` segment.  On the
claimed input the node `"a"` holds `["reference/a/b", "reference/a/c"]`, not
`["a/b", "a/c"]`, and the root edge is `"reference/d"`, not `"d"`. -/
theorem C5_counterexample :
    edgesAt (render ({} : Config) (fun _ => ("text", none))
        [Module.mk "a.b" "a/b.py", Module.mk "a.c" "a/c.py", Module.mk "d" "d.py"]
        (FS.mk [] [])).1.tree ["a"] [] = ["reference/a/b", "reference/a/c"] ∧
    (["reference/a/b", "reference/a/c"] : List String) ≠ ["a/b", "a/c"] ∧
    edgesAt (render ({} : Config) (fun _ => ("text", none))
        [Module.mk "a.b" "a/b.py", Module.mk "a.c" "a/c.py", Module.mk "d" "d.py"]
        (FS.mk [] [])).1.tree [] [] = ["reference/d"] ∧
    (["reference/d"] : List String) ≠ ["d"] ∧
    edgesAt (render ({} : Config) (fun _ => ("t2", none))
        [Module.mk "pkg" "pkg/__init__.py"] (FS.mk [] [])).1.tree ["pkg"] []
      = ["reference/pkg/__init__"] ∧
    (["reference/pkg/__init__"] : List String) ≠ ["pkg/__init__"] :=
  ⟨rfl, by decide, rfl, by decide, rfl, by decide⟩

/-- C5 amended: on input `["a.b", "a.c", "d"]` (no package initializers) with
base `docs` and subpath `reference`, exactly the files
`docs/reference/a/b.md`, `docs/reference/a/c.md`, `docs/reference/d.md` are
produced, and the navigation tree has root children
`{"a": {children: {}, edges: ["reference/a/b", "reference/a/c"]}}` and root
edges `["reference/d"]`; on input `["pkg"]` whose source is a package
initializer, `docs/reference/pkg/__init__.md` is produced and the child node
keyed `"pkg"` has edges `["reference/pkg/__init__"]`. -/
theorem C5_end_to_end :
    (render ({} : Config) (fun _ => ("text", none))
        [Module.mk "a.b" "a/b.py", Module.mk "a.c" "a/c.py", Module.mk "d" "d.py"]
        (FS.mk [] [])).1.fs.files =
      [(["docs", "reference", "a", "b.md"], "text"),
       (["docs", "reference", "a", "c.md"], "text"),
       (["docs", "reference", "d.md"], "text")] ∧
    (render ({} : Config) (fun _ => ("text", none))
        [Module.mk "a.b" "a/b.py", Module.mk "a.c" "a/c.py", Module.mk "d" "d.py"]
        (FS.mk [] [])).1.tree =
      ModuleTree.node [("a", ModuleTree.node [] ["reference/a/b", "reference/a/c"])]
        ["reference/d"] ∧
    (render ({} : Config) (fun _ => ("t2", none))
        [Module.mk "pkg" "pkg/__init__.py"] (FS.mk [] [])).1.fs.files =
      [(["docs", "reference", "pkg", "__init__.md"], "t2")] ∧
    (render ({} : Config) (fun _ => ("t2", none))
        [Module.mk "pkg" "pkg/__init__.py"] (FS.mk [] [])).1.tree =
      ModuleTree.node [("pkg", ModuleTree.node [] ["reference/pkg/__init__"])] [] :=
  ⟨rfl, rfl, rfl, rfl⟩

end GitBookSpec
